import Mathlib

/-!
# Verification of the stabping core (data model, Manager, probing worker)

Shallow embedding of the stabping repository's three core source files:

* `src/data.rs`    — on-disk record types, the `BTreeSet` round set, `ToWire`
* `src/manager/mod.rs` — the `Manager` (construction, options update, append)
* `src/workers/tcpping.rs` — the probing worker's round assembly

Machine integers (`u32`) are modelled as `Nat` (values kept below `2^32` by
construction where it matters); an `f32` is modelled by its 32-bit pattern
(a `Nat`), since the code only ever reinterprets the in-memory bits of a
float (`AsBytes`), never does float arithmetic on stored values.  Bytes are
`Nat`s below 256, native byte order is modelled as little-endian.

Collaborator modules that the core calls but whose sources are not part of
the three files (`index_file.rs`, `data_file.rs`, `manager_error.rs`,
`feeds.rs`, `workers/mod.rs` with `TimePackage`/`Kind`/`Options`, and the
`augmented_file` JSON helpers) are modelled from the spec; each such
definition carries a doc comment saying so.
-/

namespace Stabping

/-- The little-endian bytes of a 32-bit value: how a `u32` or an `f32` bit
pattern lays out in memory with `#[repr(C, packed)]` (native byte order,
no padding). -/
def leBytes32 (x : Nat) : List Nat :=
  [x % 256, x / 256 % 256, x / 256 ^ 2 % 256, x / 256 ^ 3 % 256]

theorem leBytes32_length (x : Nat) : (leBytes32 x).length = 4 := rfl

/-- `DiscreteDataOnDisk` from `src/data.rs`: `{time: u32, index: u32, val: f32}`,
`#[repr(C, packed)]`.  `val` holds the f32's 32-bit pattern. -/
structure DiscreteDataOnDisk where
  time : Nat
  index : Nat
  val : Nat
deriving Repr, DecidableEq

/-- `AveragedDataOnDisk` from `src/data.rs`:
`{time: u32, index: u32, val_sd: [f32; 2]}`, `#[repr(C, packed)]`. -/
structure AveragedDataOnDisk where
  time : Nat
  index : Nat
  val_sd : Nat × Nat
deriving Repr, DecidableEq

/-- The `DataElement` trait from `src/data.rs`.  `data_vals_as_bytes` is the
raw byte view of the value payload (via `AsBytes`), `size_of_data_vals` its
byte length. -/
class DataElement (T : Type) where
  get_time : T → Nat
  get_index : T → Nat
  size_of_data_vals : T → Nat
  data_vals_as_bytes : T → List Nat

/-- `mem::size_of::<T>()` for the record types (packed, so no padding). -/
class MemSizeOf (T : Type) where
  size_of : Nat

instance : DataElement DiscreteDataOnDisk where
  get_time d := d.time
  get_index d := d.index
  size_of_data_vals _ := 4
  data_vals_as_bytes d := leBytes32 d.val

instance : MemSizeOf DiscreteDataOnDisk := ⟨12⟩

instance : DataElement AveragedDataOnDisk where
  get_time d := d.time
  get_index d := d.index
  size_of_data_vals _ := 8
  data_vals_as_bytes d := leBytes32 d.val_sd.1 ++ leBytes32 d.val_sd.2

instance : MemSizeOf AveragedDataOnDisk := ⟨16⟩

/-- The `Ord` impls in `src/data.rs` compare records solely by `get_index()`.
Stated for `DiscreteDataOnDisk`. -/
def DiscreteDataOnDisk.cmp (a b : DiscreteDataOnDisk) : Ordering :=
  compare a.index b.index

/-- The `Ord` impl for `AveragedDataOnDisk`, also solely by `get_index()`. -/
def AveragedDataOnDisk.cmp (a b : AveragedDataOnDisk) : Ordering :=
  compare a.index b.index

/-- A `BTreeSet` over the index-only `Ord` is modelled as a list strictly
ascending by index; `btreeInsert` is `BTreeSet::insert`: it walks to the
ordered position and, when an element comparing equal (same index) is
already present, keeps the existing element (std `BTreeSet` does not
replace on insert). -/
def btreeInsert {T : Type} (idx : T → Nat) : List T → T → List T
  | [], x => [x]
  | a :: rest, x =>
    if idx x < idx a then x :: a :: rest
    else if idx x = idx a then a :: rest
    else a :: btreeInsert idx rest x

/-- `ToWireError` from `src/data.rs`. -/
inductive ToWireError where
  | IncompatibleTimes
deriving Repr, DecidableEq

/-- The loop of `ToWire::to_wire for BTreeSet<T>`: `time` is the latched
round timestamp (`None` before the first record).  On the first record the
timestamp is latched and the payload appended; a matching subsequent record
has its payload appended; a mismatching record aborts, returning the error
and the buffer as written so far (no rollback). -/
def toWireAux {T : Type} [DataElement T] :
    Option Nat → List T → List Nat → Option ToWireError × List Nat
  | _, [], wire => (none, wire)
  | time, d :: rest, wire =>
    match time with
    | none => toWireAux (some (DataElement.get_time d)) rest
        (wire ++ DataElement.data_vals_as_bytes d)
    | some e =>
      if e = DataElement.get_time d then
        toWireAux (some e) rest (wire ++ DataElement.data_vals_as_bytes d)
      else
        (some ToWireError.IncompatibleTimes, wire)

/-- `to_wire(&self, wire: &mut Vec<u8>)` on a round set (the set's ascending
iteration order is the list order).  Returns the `Result` (`none` = `Ok(())`)
together with the final contents of the mutated buffer. -/
def to_wire {T : Type} [DataElement T] (s : List T) (wire : List Nat) :
    Option ToWireError × List Nat :=
  toWireAux none s wire

/-- `space_necessary()` from `src/data.rs`: `self.len() * mem::size_of::<T>()`. -/
def space_necessary (T : Type) [MemSizeOf T] (s : List T) : Nat :=
  s.length * MemSizeOf.size_of T

/-! ## Collaborator types (modelled from the spec where the source is absent) -/

/-- Modelled from the spec: the worker's per-probe record, constructed as
`DataElement { time, index, val, sd }` in `src/workers/tcpping.rs` (its
declaration lives in `workers/mod.rs`, which is not among the sources).
`val` and `sd` are f32 bit patterns. -/
structure WorkerDataElement where
  time : Nat
  index : Nat
  val : Nat
  sd : Nat
deriving Repr, DecidableEq

/-- Modelled from the spec: `TimePackage` (declared outside the given
sources), the round's set of records, a `BTreeSet` ordered/deduplicated by
address id — here the strictly index-ascending list the set iterates as. -/
abbrev TimePackage := List WorkerDataElement

/-- Modelled from the spec: `TimePackage::insert`, the round set's
`BTreeSet::insert` over the index-only ordering. -/
def TimePackage.insert (p : TimePackage) (d : WorkerDataElement) : TimePackage :=
  btreeInsert (fun e => e.index) p d

/-- Modelled from the spec: the `Feed` enumeration (`feeds.rs` is not among
the sources): a named variant of stored data, raw vs averaged. -/
inductive Feed where
  | Raw
  | Averaged
deriving Repr, DecidableEq, BEq

/-- Modelled from the spec: `ManagerError` (`manager_error.rs` is not among
the sources).  §7 taxonomy: options-file I/O, invalid address argument; data
file append I/O errors are propagated through `append_package`. -/
inductive ManagerError where
  | OptionsFileIo
  | InvalidAddrArgument
  | DataFileIo
deriving Repr, DecidableEq

/-- `Options` (declared in `workers/mod.rs`, not among the sources), modelled
from the spec: `{addrs: ordered list of address ids, interval: milliseconds}`. -/
structure Options where
  addrs : List Nat
  interval : Nat
deriving Repr, DecidableEq

/-- Modelled from the spec: the target kind descriptor — a stable name and a
default bootstrap pair (seed address, default interval). -/
structure Kind where
  name : String
  default_addr : String
  default_interval : Nat
deriving Repr, DecidableEq

/-- `kind.default_options_bootstrap()` as consumed by `Manager::new`. -/
def Kind.default_options_bootstrap (k : Kind) : String × Nat :=
  (k.default_addr, k.default_interval)

/-- Modelled from the spec: `IndexFile` (`index_file.rs` is not among the
sources): a mapping from numeric id to address string where ids are assigned
monotonically and never reused — the id is the position in the list. -/
structure IndexFile where
  addrs : List String
deriving Repr, DecidableEq

/-- Modelled from the spec: `get_addr(id) -> address string or not-found`. -/
def IndexFile.get_addr (f : IndexFile) (i : Nat) : Option String :=
  f.addrs.get? i

/-- Modelled from the spec: `add_addr(address string) -> newly assigned id`;
the fresh id is the next unused one, and the new mapping is persisted. -/
def IndexFile.add_addr (f : IndexFile) (a : String) : Nat × IndexFile :=
  (f.addrs.length, ⟨f.addrs ++ [a]⟩)

/-- Modelled from the spec: a per-feed `DataFile` (`data_file.rs` is not
among the sources): an append-only binary log, held as its byte contents. -/
structure DataFile where
  bytes : List Nat
deriving Repr, DecidableEq

/-- Modelled from the spec: the on-disk record layout `append_element` writes
for the raw feed — back-to-back `(time: u32, index: u32, payload)` with the
raw payload being the single f32 value (native byte order, no padding). -/
def WorkerDataElement.onDiskBytes (d : WorkerDataElement) : List Nat :=
  leBytes32 d.time ++ leBytes32 d.index ++ leBytes32 d.val

/-! ## Manager (`src/manager/mod.rs`) -/

/-- The `Manager` struct from `src/manager/mod.rs`.  The lock wrappers
(`RwLock`, `Mutex`) are erased: the embedding is the sequential state they
protect.  `data_files: HashMap<Feed, RwLock<DataFile>>` is an association
list; the options file's current (parsed) contents stand in for the file at
`options_path` (`none` = empty file). -/
structure Manager where
  kind : Kind
  index_file : IndexFile
  data_files : List (Feed × DataFile)
  options : Options
  options_file : Option Options
deriving Repr, DecidableEq

/-- What `Manager::new` sees of the storage directory: the (parsed) contents
of the kind's index file (empty directory ⇒ no ids yet) and of its options
file (`none` = absent or empty, triggering the bootstrap branch, since the
file is opened with `create(true)` and then `length_p > 0` is tested). -/
structure DataDir where
  index_content : List String
  options_content : Option Options
deriving Repr, DecidableEq

/-- `Manager::new` from `src/manager/mod.rs`.  Opens the index file; the
data-file map is left empty (`HashMap::new()` — the `TODO` in the source
never populates it); opens the options file.  If the options file is empty,
bootstraps: registers the kind's default address in the index (fresh id),
writes `Options { addrs: vec![id], interval }` to the options file and keeps
it in memory.  If non-empty, the parsed contents are used directly, with no
validation against the index.  (The underlying file I/O is modelled as
succeeding; the claims under proof only concern these paths.) -/
def Manager.new (kind : Kind) (dir : DataDir) : Except ManagerError Manager :=
  let index_file : IndexFile := ⟨dir.index_content⟩
  match dir.options_content with
  | some opts =>
      .ok { kind := kind, index_file := index_file, data_files := [],
            options := opts, options_file := some opts }
  | none =>
      let (addr, interval) := kind.default_options_bootstrap
      let (addr_i, index_file') := index_file.add_addr addr
      let default_options : Options := { addrs := [addr_i], interval := interval }
      .ok { kind := kind, index_file := index_file', data_files := [],
            options := default_options, options_file := some default_options }

/-- `Manager::options_read`: the value behind the shared-read lock. -/
def Manager.options_read (m : Manager) : Options :=
  m.options

/-- `Manager::index_read`: the value behind the shared-read lock. -/
def Manager.index_read (m : Manager) : IndexFile :=
  m.index_file

/-- `Manager::options_update` from `src/manager/mod.rs`.  First validates
every id of `new_options.addrs` against the index (returning
`InvalidAddrArgument` on the first unknown id, before any mutation); then
replaces the in-memory options and calls `overwrite_json` on the options
file.  `write_ok` models whether that (absent-source `augmented_file`)
disk write succeeds; on failure the call returns `OptionsFileIO` with the
in-memory replacement already done.  Returns the `Result` and the
post-call state. -/
def Manager.options_update (m : Manager) (new_options : Options)
    (write_ok : Bool) : Except ManagerError Unit × Manager :=
  if new_options.addrs.any (fun i => (m.index_file.get_addr i).isNone) then
    (.error .InvalidAddrArgument, m)
  else
    let m' := { m with options := new_options }
    if write_ok then
      (.ok (), { m' with options_file := some new_options })
    else
      (.error .OptionsFileIo, m')

/-- The observable outcome of a call that may panic: `Ok(())`, `Err(e)`, or
a panic (an `unwrap` of `None`), which returns nothing to the caller. -/
inductive AppendOutcome where
  | ok
  | err (e : ManagerError)
  | panicked
deriving Repr, DecidableEq

/-- The append loop of `Manager::append_package`: appends each element's
on-disk bytes in turn; `io_ok k` models whether the `k`-th
`append_element` disk write succeeds (`data_file.rs` is not among the
sources; the spec says appends are sequential, a failure surfaces the I/O
error, and completed appends stay).  Returns the `Result` and the file's
byte contents as written so far. -/
def appendElements (file : List Nat) (elems : List WorkerDataElement)
    (io_ok : Nat → Bool) (k : Nat) : Except ManagerError Unit × List Nat :=
  match elems with
  | [] => (.ok (), file)
  | d :: rest =>
    if io_ok k then
      appendElements (file ++ d.onDiskBytes) rest io_ok (k + 1)
    else
      (.error .DataFileIo, file)

/-- Replace the `DataFile` stored under feed `f` (the map entry mutated
through the feed's write lock). -/
def setFeed (l : List (Feed × DataFile)) (f : Feed) (d : DataFile) :
    List (Feed × DataFile) :=
  l.map (fun p => if p.1 = f then (f, d) else p)

/-- `Manager::append_package` from `src/manager/mod.rs`:
`self.data_files.get(&Feed::Raw).unwrap()` — a missing raw-feed entry makes
the `unwrap` panic; otherwise every element of the package is appended in
iteration (ascending-id) order, `try!` aborting on the first failing write
without rolling back the earlier appends. -/
def Manager.append_package (m : Manager) (package : TimePackage)
    (io_ok : Nat → Bool) : AppendOutcome × Manager :=
  match m.data_files.lookup Feed.Raw with
  | none => (.panicked, m)
  | some raw_data_file =>
    match appendElements raw_data_file.bytes package io_ok 0 with
    | (.ok _, bytes') =>
        (.ok, { m with data_files := setFeed m.data_files Feed.Raw ⟨bytes'⟩ })
    | (.error e, bytes') =>
        (.err e, { m with data_files := setFeed m.data_files Feed.Raw ⟨bytes'⟩ })

/-! ## Probing worker (`src/workers/tcpping.rs`) -/

/-- The f32 quiet-NaN bit pattern: the `std::f32::NAN` sentinel. -/
def NAN : Nat := 0x7FC00000

/-- The body of a per-address probe thread: if the TCP connect succeeds the
elapsed milliseconds (as an f32 bit pattern) are reported, on any connection
failure the NaN sentinel is. -/
def probe_result (connect_ok : Bool) (elapsed : Nat) : Nat :=
  if connect_ok then elapsed else NAN

/-- The fan-in loop of `run_worker`: for the `k`-th dispatched address id
`a` (in dispatch order), `recv k` is the probe's reported value (`none` if
the channel was closed without a report, which `unwrap_or(NAN)` turns into
the sentinel); each record carries the round timestamp, the address id, the
received-or-sentinel value, and `sd = NAN`, and is inserted into the round's
set. -/
def assembleRoundAux (timestamp : Nat) (recv : Nat → Option Nat) :
    Nat → List Nat → TimePackage → TimePackage
  | _, [], pkg => pkg
  | k, a :: rest, pkg =>
      assembleRoundAux timestamp recv (k + 1) rest
        (pkg.insert { time := timestamp, index := a,
                      val := (recv k).getD NAN, sd := NAN })

/-- One round's package assembly in `run_worker`: the addresses of the
options snapshot are dispatched in order, then each handle is drained into
the round's `TimePackage`. -/
def assemble_round (timestamp : Nat) (addrs : List Nat)
    (recv : Nat → Option Nat) : TimePackage :=
  assembleRoundAux timestamp recv 0 addrs []

/-- The worker's per-round address resolution
(`manager.index_read().get_addr(*addr_i).unwrap()` for each configured id,
in order): `none` models the panic of `unwrap` on a not-found id; otherwise
the list of resolved address strings. -/
def resolve_addrs (f : IndexFile) : List Nat → Option (List String)
  | [] => some []
  | i :: rest =>
    match f.get_addr i with
    | none => none
    | some s => (resolve_addrs f rest).map (fun l => s :: l)

/-! ## Helper lemmas: the wire codec -/

/-- Once a timestamp `t` is latched, a tail whose records all carry time `t`
is serialized completely: `Ok`, with every payload appended in order. -/
theorem toWireAux_latched {T : Type} [DataElement T] (t : Nat) (s : List T)
    (hall : ∀ d ∈ s, DataElement.get_time d = t) (wire : List Nat) :
    toWireAux (some t) s wire
      = (none, wire ++ (s.map DataElement.data_vals_as_bytes).flatten) := by
  induction s generalizing wire with
  | nil => simp [toWireAux]
  | cons d rest ih =>
    have hd : DataElement.get_time d = t := hall d (by simp)
    have hrest : ∀ x ∈ rest, DataElement.get_time x = t :=
      fun x hx => hall x (by simp [hx])
    simp only [toWireAux, hd, if_pos rfl]
    rw [ih hrest]
    simp [List.append_assoc]

/-- Once `t` is latched, a first mismatching record aborts the walk: the
error is returned and the buffer holds exactly the payloads written before
the mismatch. -/
theorem toWireAux_abort {T : Type} [DataElement T] (t : Nat) (pre : List T)
    (d : T) (post : List T) (hpre : ∀ x ∈ pre, DataElement.get_time x = t)
    (hd : DataElement.get_time d ≠ t) (wire : List Nat) :
    toWireAux (some t) (pre ++ d :: post) wire
      = (some ToWireError.IncompatibleTimes,
         wire ++ (pre.map DataElement.data_vals_as_bytes).flatten) := by
  induction pre generalizing wire with
  | nil =>
    have : ¬ (t = DataElement.get_time d) := fun h => hd h.symm
    simp [toWireAux, this]
  | cons x pre' ih =>
    have hx : DataElement.get_time x = t := hpre x (by simp)
    have hpre' : ∀ y ∈ pre', DataElement.get_time y = t :=
      fun y hy => hpre y (by simp [hy])
    simp only [List.cons_append, toWireAux, hx, eq_self_iff_true, if_true,
      List.append_eq]
    rw [ih hpre']
    simp [List.append_assoc]

/-- `to_wire` on a single-timestamp round: succeeds, appending exactly the
concatenation of the payloads in list (= ascending-id) order. -/
theorem to_wire_single_time {T : Type} [DataElement T] (s : List T) (t : Nat)
    (hall : ∀ d ∈ s, DataElement.get_time d = t) (wire : List Nat) :
    to_wire s wire
      = (none, wire ++ (s.map DataElement.data_vals_as_bytes).flatten) := by
  cases s with
  | nil => simp [to_wire, toWireAux]
  | cons d rest =>
    have hrest : ∀ x ∈ rest, DataElement.get_time x = DataElement.get_time d := by
      intro x hx
      rw [hall x (by simp [hx]), hall d (by simp)]
    simp only [to_wire, toWireAux]
    rw [toWireAux_latched (DataElement.get_time d) rest hrest]
    simp [List.append_assoc]

/-- Reading back the `k`-th 4-byte chunk of a concatenation of 4-byte
payloads recovers the `k`-th payload. -/
theorem flatten_chunk4 (L : List (List Nat)) (hlen : ∀ l ∈ L, l.length = 4)
    (k : Nat) (hk : k < L.length) :
    (L.flatten.drop (4 * k)).take 4 = L.get ⟨k, hk⟩ := by
  induction L generalizing k with
  | nil => simp at hk
  | cons l L' ih =>
    have hl : l.length = 4 := hlen l (by simp)
    cases k with
    | zero =>
      simp only [Nat.mul_zero, List.drop_zero, List.flatten_cons, List.get]
      rw [List.take_append_of_le_length (by omega)]
      simp [List.take_of_length_le, hl]
    | succ k' =>
      have hk' : k' < L'.length := by simpa using hk
      have hL' : ∀ x ∈ L', x.length = 4 := fun x hx => hlen x (by simp [hx])
      have hdrop : (l ++ L'.flatten).drop (4 * (k' + 1))
          = L'.flatten.drop (4 * k') := by
        have h4 : 4 * (k' + 1) = l.length + 4 * k' := by omega
        rw [h4, List.drop_append]
      simp only [List.flatten_cons, hdrop, List.get]
      exact ih hL' k' hk'

/-! ## Helper lemmas: the index-ordered round set -/

/-- `BTreeSet::insert` never removes an element already in the set. -/
theorem mem_btreeInsert_of_mem {T : Type} (idx : T → Nat) (s : List T)
    (x y : T) (hy : y ∈ s) : y ∈ btreeInsert idx s x := by
  induction s with
  | nil => simp at hy
  | cons a rest ih =>
    simp only [btreeInsert]
    split
    · simp at hy ⊢
      tauto
    · split
      · exact hy
      · rcases List.mem_cons.mp hy with h | h
        · simp [h]
        · simp [ih h]

/-- Every element of the set after an insert is the inserted element or one
of the old elements. -/
theorem mem_of_mem_btreeInsert {T : Type} (idx : T → Nat) (s : List T)
    (x y : T) (hy : y ∈ btreeInsert idx s x) : y = x ∨ y ∈ s := by
  induction s with
  | nil => simpa [btreeInsert] using hy
  | cons a rest ih =>
    simp only [btreeInsert] at hy
    split at hy
    · rcases List.mem_cons.mp hy with h | h
      · exact Or.inl h
      · exact Or.inr h
    · split at hy
      · exact Or.inr hy
      · rcases List.mem_cons.mp hy with h | h
        · exact Or.inr (by simp [h])
        · rcases ih h with h' | h'
          · exact Or.inl h'
          · exact Or.inr (by simp [h'])

/-- If no element of the set carries the inserted element's index, the
inserted element itself is a member afterwards. -/
theorem self_mem_btreeInsert {T : Type} (idx : T → Nat) (s : List T) (x : T)
    (hfresh : ∀ y ∈ s, idx y ≠ idx x) : x ∈ btreeInsert idx s x := by
  induction s with
  | nil => simp [btreeInsert]
  | cons a rest ih =>
    have ha : idx a ≠ idx x := hfresh a (by simp)
    simp only [btreeInsert]
    split
    · simp
    · split
      · omega
      · have : ∀ y ∈ rest, idx y ≠ idx x := fun y hy => hfresh y (by simp [hy])
        simp [ih this]

/-- Inserting into a strictly index-ascending list keeps it strictly
index-ascending (the `BTreeSet` invariant is preserved). -/
theorem btreeInsert_pairwise {T : Type} (idx : T → Nat) (s : List T) (x : T)
    (hs : s.Pairwise (fun a b => idx a < idx b)) :
    (btreeInsert idx s x).Pairwise (fun a b => idx a < idx b) := by
  induction s with
  | nil => simp [btreeInsert]
  | cons a rest ih =>
    rcases List.pairwise_cons.mp hs with ⟨ha, hrest⟩
    simp only [btreeInsert]
    split
    · refine List.pairwise_cons.mpr ⟨?_, hs⟩
      intro b hb
      rcases List.mem_cons.mp hb with h | h
      · subst h; omega
      · have := ha b h
        omega
    · split
      · exact hs
      · refine List.pairwise_cons.mpr ⟨?_, ih hrest⟩
        intro b hb
        rcases mem_of_mem_btreeInsert idx rest x b hb with h | h
        · subst h; omega
        · exact ha b h

/-- Inserting an element whose index is already present into a (sorted) set
is a no-op: the existing element is kept unchanged. -/
theorem btreeInsert_noop {T : Type} (idx : T → Nat) (s : List T) (x : T)
    (hs : s.Pairwise (fun a b => idx a < idx b))
    (hdup : ∃ y ∈ s, idx y = idx x) : btreeInsert idx s x = s := by
  induction s with
  | nil => simp at hdup
  | cons a rest ih =>
    rcases List.pairwise_cons.mp hs with ⟨ha, hrest⟩
    rcases hdup with ⟨y, hy, hyx⟩
    simp only [btreeInsert]
    split
    · rcases List.mem_cons.mp hy with h | h
      · subst h; omega
      · have := ha y h
        omega
    · split
      · rfl
      · rcases List.mem_cons.mp hy with h | h
        · subst h; omega
        · rw [ih hrest ⟨y, h, hyx⟩]

/-- The `DataElement` impl for `DiscreteDataOnDisk`: `get_time` returns the
`time` field. -/
theorem discrete_get_time (d : DiscreteDataOnDisk) :
    DataElement.get_time d = d.time := rfl

/-- The `DataElement` impl for `DiscreteDataOnDisk`: `get_index` returns the
`index` field. -/
theorem discrete_get_index (d : DiscreteDataOnDisk) :
    DataElement.get_index d = d.index := rfl

/-- The `DataElement` impl for `DiscreteDataOnDisk`: the payload bytes are
exactly the four bytes of the `val` f32 — no padding, no time/index. -/
theorem discrete_data_vals (d : DiscreteDataOnDisk) :
    DataElement.data_vals_as_bytes d = leBytes32 d.val := rfl

/-- The payload-byte extractor of the `DiscreteDataOnDisk` impl, as a
function. -/
theorem discrete_data_vals_fun :
    (DataElement.data_vals_as_bytes : DiscreteDataOnDisk → List Nat)
      = fun r => leBytes32 r.val := rfl

/-- Concatenating 4-byte payloads yields `4 * count` bytes. -/
theorem flatten_length4 (L : List (List Nat)) (hlen : ∀ l ∈ L, l.length = 4) :
    L.flatten.length = L.length * 4 := by
  induction L with
  | nil => simp
  | cons l L' ih =>
    have hl : l.length = 4 := hlen l (by simp)
    have : ∀ x ∈ L', x.length = 4 := fun x hx => hlen x (by simp [hx])
    simp [ih this, hl]
    omega

/-- The first record of a list whose times are not all `t0`, split off:
everything before it has time `t0`, it does not. -/
theorem exists_first_mismatch (t0 : Nat) (l : List DiscreteDataOnDisk)
    (h : ∃ x ∈ l, x.time ≠ t0) :
    ∃ pre d post, l = pre ++ d :: post ∧ (∀ x ∈ pre, x.time = t0)
      ∧ d.time ≠ t0 := by
  induction l with
  | nil => simp at h
  | cons a rest ih =>
    by_cases ha : a.time = t0
    · have hrest : ∃ x ∈ rest, x.time ≠ t0 := by
        rcases h with ⟨x, hx, hxt⟩
        rcases List.mem_cons.mp hx with h' | h'
        · subst h'; exact absurd ha hxt
        · exact ⟨x, h', hxt⟩
      rcases ih hrest with ⟨pre, d, post, heq, hpre, hd⟩
      refine ⟨a :: pre, d, post, by simp [heq], ?_, hd⟩
      intro x hx
      rcases List.mem_cons.mp hx with h' | h'
      · subst h'; exact ha
      · exact hpre x h'
    · exact ⟨[], a, rest, rfl, by simp, ha⟩

/-! ## Claim theorems: the wire codec and the round set -/

/-- C2: for every round set whose records all share one timestamp, `to_wire`
succeeds (`Ok`) and appends to the buffer exactly the concatenation, in the
set's ascending-id order, of each record's value-payload bytes only — and
re-reading the buffer in 4-byte chunks in that order reproduces each
record's original payload bytes exactly. -/
theorem to_wire_roundtrip (s : List DiscreteDataOnDisk) (t : Nat)
    (wire : List Nat) (_hsort : s.Pairwise (fun a b => a.index < b.index))
    (hall : ∀ d ∈ s, d.time = t) :
    to_wire s wire
      = (none, wire ++ (s.map (fun r => leBytes32 r.val)).flatten) ∧
    ∀ k, (hk : k < s.length) →
      (((to_wire s wire).snd).drop (wire.length + 4 * k)).take 4
        = leBytes32 (s.get ⟨k, hk⟩).val := by
  have h1 : to_wire s wire
      = (none, wire ++ (s.map (fun r => leBytes32 r.val)).flatten) := by
    have := to_wire_single_time s t
      (fun d hd => by rw [discrete_get_time]; exact hall d hd) wire
    simpa [discrete_data_vals] using this
  refine ⟨h1, ?_⟩
  intro k hk
  rw [h1]
  have hdrop : ((wire ++ (s.map (fun r => leBytes32 r.val)).flatten).drop
      (wire.length + 4 * k)) = ((s.map (fun r => leBytes32 r.val)).flatten).drop
      (4 * k) := List.drop_append (4 * k)
  rw [hdrop]
  have hk' : k < (s.map (fun r => leBytes32 r.val)).length := by simpa using hk
  have := flatten_chunk4 (s.map (fun r => leBytes32 r.val))
    (by intro l hl
        rcases List.mem_map.mp hl with ⟨r, _, hr⟩
        rw [← hr]
        exact leBytes32_length r.val) k hk'
  rw [this]
  simp [List.get_eq_getElem]

/-- C2 witness: a concrete two-record single-timestamp round. -/
theorem to_wire_roundtrip_witness :
    to_wire [(⟨7, 1, 0x3F800000⟩ : DiscreteDataOnDisk), ⟨7, 2, 0x7FC00000⟩] [9]
      = (none, [9] ++ ([leBytes32 0x3F800000, leBytes32 0x7FC00000]).flatten) ∧
    (((to_wire [(⟨7, 1, 0x3F800000⟩ : DiscreteDataOnDisk), ⟨7, 2, 0x7FC00000⟩]
        [9]).snd).drop (1 + 4 * 1)).take 4 = leBytes32 0x7FC00000 := by
  have h := to_wire_roundtrip
    [(⟨7, 1, 0x3F800000⟩ : DiscreteDataOnDisk), ⟨7, 2, 0x7FC00000⟩] 7 [9]
    (by decide) (by decide)
  exact ⟨h.1, h.2 1 (by decide)⟩

/-- C3: on a round set containing at least two distinct timestamps, `to_wire`
fails with `IncompatibleTimes`: the first record's timestamp `t0` is latched,
the walk aborts at the first subsequent record whose timestamp differs, and
the buffer ends up holding exactly the payloads of the records preceding that
mismatching record (no rollback, nothing after). -/
theorem to_wire_incompatible_times (s : List DiscreteDataOnDisk)
    (wire : List Nat)
    (hmix : ∃ a ∈ s, ∃ b ∈ s, a.time ≠ b.time) :
    ∃ pre d post t0, s = pre ++ d :: post ∧ pre ≠ [] ∧
      (∀ x ∈ pre, x.time = t0) ∧ d.time ≠ t0 ∧
      to_wire s wire = (some ToWireError.IncompatibleTimes,
        wire ++ (pre.map (fun r => leBytes32 r.val)).flatten) := by
  cases s with
  | nil => simp at hmix
  | cons h0 rest =>
    rcases hmix with ⟨a, ha, b, hb, hab⟩
    have hex : ∃ x ∈ rest, x.time ≠ h0.time := by
      by_cases hat : a.time = h0.time
      · have hbt : b.time ≠ h0.time := fun hbt => hab (by rw [hat, hbt])
        rcases List.mem_cons.mp hb with h' | h'
        · exact absurd (by rw [h']) hbt
        · exact ⟨b, h', hbt⟩
      · rcases List.mem_cons.mp ha with h' | h'
        · exact absurd (by rw [h']) hat
        · exact ⟨a, h', hat⟩
    rcases exists_first_mismatch h0.time rest hex with
      ⟨pre', d, post, heq, hpre', hd⟩
    refine ⟨h0 :: pre', d, post, h0.time, by simp [heq], by simp, ?_, hd, ?_⟩
    · intro x hx
      rcases List.mem_cons.mp hx with h' | h'
      · subst h'; rfl
      · exact hpre' x h'
    · have habort := toWireAux_abort h0.time pre' d post
        (fun x hx => by rw [discrete_get_time]; exact hpre' x hx)
        (by rw [discrete_get_time]; exact hd)
        (wire ++ DataElement.data_vals_as_bytes h0)
      simp only [to_wire, toWireAux, heq, discrete_get_time]
      rw [habort]
      simp [discrete_data_vals_fun, List.append_assoc]

/-- C3 witness: a concrete two-record set with two distinct timestamps. -/
theorem to_wire_incompatible_times_witness :
    ∃ pre d post t0,
      [(⟨7, 1, 11⟩ : DiscreteDataOnDisk), ⟨8, 2, 22⟩] = pre ++ d :: post ∧
      pre ≠ [] ∧ (∀ x ∈ pre, x.time = t0) ∧ d.time ≠ t0 ∧
      to_wire [(⟨7, 1, 11⟩ : DiscreteDataOnDisk), ⟨8, 2, 22⟩] []
        = (some ToWireError.IncompatibleTimes,
           [] ++ (pre.map (fun r => leBytes32 r.val)).flatten) :=
  to_wire_incompatible_times [⟨7, 1, 11⟩, ⟨8, 2, 22⟩] []
    ⟨⟨7, 1, 11⟩, by decide, ⟨8, 2, 22⟩, by decide, by decide⟩

/-- C4 counterexample: on a one-record single-timestamp set,
`space_necessary()` is `12` (one whole on-disk record) but a successful
`to_wire` appends only `4` bytes (the payload alone), so the claimed
equality between the two fails. -/
theorem space_necessary_neq_wire_bytes :
    space_necessary DiscreteDataOnDisk [⟨0, 0, 0⟩] = 12 ∧
    (to_wire [(⟨0, 0, 0⟩ : DiscreteDataOnDisk)] ([] : List Nat)).fst = none ∧
    (to_wire [(⟨0, 0, 0⟩ : DiscreteDataOnDisk)] ([] : List Nat)).snd.length = 4 ∧
    (4 : Nat) ≠ 12 := by
  refine ⟨rfl, rfl, rfl, by decide⟩

/-- C4 (amended): `space_necessary()` always equals
`record_count * fixed_record_size` (`12` bytes per raw record); a successful
`to_wire` on a single-timestamp set appends `record_count * payload_size`
(`4` bytes per raw record), so `space_necessary()` is an upper bound on the
appended bytes and equals them only for the empty set. -/
theorem space_necessary_formula (s : List DiscreteDataOnDisk) (t : Nat)
    (hall : ∀ d ∈ s, d.time = t) :
    space_necessary DiscreteDataOnDisk s = s.length * 12 ∧
    (to_wire s ([] : List Nat)).fst = none ∧
    (to_wire s ([] : List Nat)).snd.length = s.length * 4 ∧
    (to_wire s ([] : List Nat)).snd.length ≤ space_necessary DiscreteDataOnDisk s ∧
    ((to_wire s ([] : List Nat)).snd.length = space_necessary DiscreteDataOnDisk s
      ↔ s = []) := by
  have h1 : to_wire s ([] : List Nat)
      = (none, [] ++ (s.map (fun r => leBytes32 r.val)).flatten) := by
    have := to_wire_single_time s t
      (fun d hd => by rw [discrete_get_time]; exact hall d hd) []
    simpa [discrete_data_vals] using this
  have hlen : (to_wire s ([] : List Nat)).snd.length = s.length * 4 := by
    rw [h1]
    simp only [List.nil_append]
    rw [flatten_length4]
    · simp
    · intro l hl
      rcases List.mem_map.mp hl with ⟨r, _, hr⟩
      rw [← hr]
      exact leBytes32_length r.val
  refine ⟨rfl, by rw [h1], hlen, ?_, ?_⟩
  · rw [hlen]
    simp only [space_necessary]
    have : MemSizeOf.size_of DiscreteDataOnDisk = 12 := rfl
    rw [this]
    omega
  · rw [hlen]
    simp only [space_necessary]
    have h12 : MemSizeOf.size_of DiscreteDataOnDisk = 12 := rfl
    rw [h12]
    constructor
    · intro h
      have : s.length = 0 := by omega
      exact List.length_eq_zero.mp this
    · intro h
      subst h
      simp

/-- C4 witness: the amended statement at a concrete three-record set. -/
theorem space_necessary_formula_witness :
    space_necessary DiscreteDataOnDisk
      [(⟨5, 0, 1⟩ : DiscreteDataOnDisk), ⟨5, 1, 2⟩, ⟨5, 2, 3⟩] = 3 * 12 ∧
    (to_wire [(⟨5, 0, 1⟩ : DiscreteDataOnDisk), ⟨5, 1, 2⟩, ⟨5, 2, 3⟩]
      ([] : List Nat)).snd.length = 3 * 4 := by
  have h := space_necessary_formula [⟨5, 0, 1⟩, ⟨5, 1, 2⟩, ⟨5, 2, 3⟩] 5 (by decide)
  exact ⟨h.1, h.2.2.1⟩

/-- C5: record ordering and equality are solely by the `index` field (for
both on-disk variants), so inserting a record whose address id is already
present in a round's (sorted) set is a no-op, and inserting two same-id
records into an empty round set leaves exactly the first one. -/
theorem record_ord_index_only_insert_noop :
    (∀ a b : DiscreteDataOnDisk,
      DiscreteDataOnDisk.cmp a b = Ordering.eq ↔ a.index = b.index) ∧
    (∀ a b : AveragedDataOnDisk,
      AveragedDataOnDisk.cmp a b = Ordering.eq ↔ a.index = b.index) ∧
    (∀ (T : Type) (idx : T → Nat) (s : List T) (x : T),
      s.Pairwise (fun a b => idx a < idx b) → (∃ y ∈ s, idx y = idx x) →
      btreeInsert idx s x = s) ∧
    (∀ r1 r2 : WorkerDataElement, r1.index = r2.index →
      TimePackage.insert (TimePackage.insert ([] : TimePackage) r1) r2
        = [r1]) := by
  refine ⟨?_, ?_, ?_, ?_⟩
  · intro a b
    exact compare_eq_iff_eq
  · intro a b
    exact compare_eq_iff_eq
  · intro T idx s x hs hdup
    exact btreeInsert_noop idx s x hs hdup
  · intro r1 r2 h
    simp [TimePackage.insert, btreeInsert, h]

/-- C5 witness: two concrete same-id records with different timestamps and
payloads collapse to the first inserted. -/
theorem record_ord_index_only_insert_noop_witness :
    TimePackage.insert (TimePackage.insert ([] : TimePackage)
      ⟨10, 3, 1, 2⟩) ⟨99, 3, 7, 8⟩ = [⟨10, 3, 1, 2⟩] :=
  record_ord_index_only_insert_noop.2.2.2 ⟨10, 3, 1, 2⟩ ⟨99, 3, 7, 8⟩ rfl

/-! ## Helper lemmas: the append loop -/

/-- If every write of the loop succeeds, all elements' on-disk bytes are
appended in order. -/
theorem appendElements_all_ok (file : List Nat) (elems : List WorkerDataElement)
    (io_ok : Nat → Bool) (k : Nat)
    (h : ∀ j, j < elems.length → io_ok (k + j) = true) :
    appendElements file elems io_ok k
      = (.ok (), file ++ (elems.map WorkerDataElement.onDiskBytes).flatten) := by
  induction elems generalizing file k with
  | nil => simp [appendElements]
  | cons d rest ih =>
    have hk : io_ok k = true := by simpa using h 0 (by simp)
    have h' : ∀ j, j < rest.length → io_ok (k + 1 + j) = true := by
      intro j hj
      have := h (j + 1) (by simp; omega)
      simpa [Nat.add_assoc, Nat.add_comm 1 j] using this
    simp only [appendElements, hk, if_true]
    rw [ih (file ++ d.onDiskBytes) (k + 1) h']
    simp [List.append_assoc]

/-- If the `j`-th write fails after `j` successful writes, the loop aborts
with the I/O error; the file holds the first `j` elements' bytes and the
remaining elements are never appended. -/
theorem appendElements_fail (file : List Nat) (elems : List WorkerDataElement)
    (io_ok : Nat → Bool) (k j : Nat) (hj : j < elems.length)
    (hok : ∀ i, i < j → io_ok (k + i) = true) (hfail : io_ok (k + j) = false) :
    appendElements file elems io_ok k
      = (.error ManagerError.DataFileIo,
         file ++ ((elems.take j).map WorkerDataElement.onDiskBytes).flatten) := by
  induction j generalizing elems file k with
  | zero =>
    cases elems with
    | nil => simp at hj
    | cons d rest =>
      have : io_ok k = false := by simpa using hfail
      simp [appendElements, this]
  | succ j' ih =>
    cases elems with
    | nil => simp at hj
    | cons d rest =>
      have hk : io_ok k = true := by simpa using hok 0 (by omega)
      have hok' : ∀ i, i < j' → io_ok (k + 1 + i) = true := by
        intro i hi
        have := hok (i + 1) (by omega)
        simpa [Nat.add_assoc, Nat.add_comm 1 i] using this
      have hfail' : io_ok (k + 1 + j') = false := by
        have : k + 1 + j' = k + (j' + 1) := by omega
        rw [this]
        exact hfail
      have hj' : j' < rest.length := by simpa using hj
      simp only [appendElements, hk, if_true]
      rw [ih (file ++ d.onDiskBytes) rest (k + 1) hj' hok' hfail']
      simp [List.append_assoc]

/-! ## Claim theorems: the Manager -/

/-- C1 counterexample: `Manager::new` leaves `data_files` empty (the raw
feed's `DataFile` is unavailable), and on such a manager `append_package`
panics (`Option::unwrap` on `None`) instead of returning an error to the
caller. -/
theorem append_package_missing_feed_panics :
    Manager.new ⟨"tcpping", "example.com:80", 5000⟩ ⟨[], none⟩
      = .ok { kind := ⟨"tcpping", "example.com:80", 5000⟩,
              index_file := ⟨["example.com:80"]⟩, data_files := [],
              options := ⟨[0], 5000⟩, options_file := some ⟨[0], 5000⟩ } ∧
    (Manager.append_package
      { kind := ⟨"tcpping", "example.com:80", 5000⟩,
        index_file := ⟨["example.com:80"]⟩, data_files := [],
        options := ⟨[0], 5000⟩, options_file := some ⟨[0], 5000⟩ }
      [⟨7, 0, 42, NAN⟩] (fun _ => true)).fst = AppendOutcome.panicked ∧
    AppendOutcome.panicked ≠ AppendOutcome.ok ∧
    AppendOutcome.panicked ≠ AppendOutcome.err ManagerError.OptionsFileIo ∧
    AppendOutcome.panicked ≠ AppendOutcome.err ManagerError.InvalidAddrArgument ∧
    AppendOutcome.panicked ≠ AppendOutcome.err ManagerError.DataFileIo := by
  refine ⟨rfl, rfl, by decide, by decide, by decide, by decide⟩

/-- C1 (amended): `append_package` looks up the raw feed's `DataFile` and
panics (it does not return an error) if that feed is unavailable; otherwise
it appends every record's on-disk bytes sequentially, and any single record
write failure aborts the remaining appends for that round and surfaces the
underlying I/O error, with already-appended records neither retried nor
rolled back. -/
theorem append_package_spec (m : Manager) (package : TimePackage)
    (io_ok : Nat → Bool) :
    (m.data_files.lookup Feed.Raw = none →
      m.append_package package io_ok = (.panicked, m)) ∧
    (∀ df, m.data_files.lookup Feed.Raw = some df →
      (∀ k, k < package.length → io_ok k = true) →
      m.append_package package io_ok = (.ok,
        { m with data_files := (setFeed m.data_files Feed.Raw
            ⟨df.bytes ++ (package.map WorkerDataElement.onDiskBytes).flatten⟩) })) ∧
    (∀ df j, m.data_files.lookup Feed.Raw = some df →
      j < package.length → (∀ k, k < j → io_ok k = true) → io_ok j = false →
      m.append_package package io_ok = (.err ManagerError.DataFileIo,
        { m with data_files := (setFeed m.data_files Feed.Raw
            ⟨df.bytes ++
              ((package.take j).map WorkerDataElement.onDiskBytes).flatten⟩) })) := by
  refine ⟨?_, ?_, ?_⟩
  · intro hnone
    simp [Manager.append_package, hnone]
  · intro df hdf hall
    have h := appendElements_all_ok df.bytes package io_ok 0
      (fun j hj => by simpa using hall j hj)
    simp [Manager.append_package, hdf, h]
  · intro df j hdf hj hok hfail
    have h := appendElements_fail df.bytes package io_ok 0 j hj
      (fun i hi => by simpa using hok i hi) (by simpa using hfail)
    simp [Manager.append_package, hdf, h]

/-- C1 witness: a two-record round against a manager whose raw feed file is
present; the first write succeeds and the second fails, leaving exactly the
first record's bytes appended. -/
theorem append_package_spec_witness :
    Manager.append_package
      { kind := ⟨"tcpping", "example.com:80", 5000⟩,
        index_file := ⟨["example.com:80"]⟩,
        data_files := [(Feed.Raw, ⟨[1, 2]⟩)],
        options := ⟨[0], 5000⟩, options_file := some ⟨[0], 5000⟩ }
      [⟨7, 0, 42, 0⟩, ⟨7, 1, 43, 0⟩] (fun k => k = 0)
      = (.err ManagerError.DataFileIo,
        { kind := ⟨"tcpping", "example.com:80", 5000⟩,
          index_file := ⟨["example.com:80"]⟩,
          data_files := setFeed [(Feed.Raw, ⟨[1, 2]⟩)] Feed.Raw
            ⟨[1, 2] ++ (([(⟨7, 0, 42, 0⟩ : WorkerDataElement)]).map
              WorkerDataElement.onDiskBytes).flatten⟩,
          options := ⟨[0], 5000⟩, options_file := some ⟨[0], 5000⟩ }) := by
  have h := (append_package_spec
    { kind := ⟨"tcpping", "example.com:80", 5000⟩,
      index_file := ⟨["example.com:80"]⟩,
      data_files := [(Feed.Raw, ⟨[1, 2]⟩)],
      options := ⟨[0], 5000⟩, options_file := some ⟨[0], 5000⟩ }
    [⟨7, 0, 42, 0⟩, ⟨7, 1, 43, 0⟩] (fun k => k = 0)).2.2 ⟨[1, 2]⟩ 1
    (by decide) (by decide) (by intro k hk; interval_cases k; decide)
    (by decide)
  exact h

/-- C6: an `options_update` carrying any address id unknown to the index
returns `InvalidAddrArgument` before any mutation: the whole manager state —
in-memory options and options file included — is unchanged. -/
theorem options_update_invalid_addr (m : Manager) (new_options : Options)
    (write_ok : Bool)
    (hbad : ∃ i ∈ new_options.addrs, m.index_file.get_addr i = none) :
    m.options_update new_options write_ok
      = (.error ManagerError.InvalidAddrArgument, m) := by
  have hany : new_options.addrs.any
      (fun i => (m.index_file.get_addr i).isNone) = true := by
    rcases hbad with ⟨i, hi, hnone⟩
    exact List.any_eq_true.mpr ⟨i, hi, by simp [hnone]⟩
  simp [Manager.options_update, hany]

/-- C6 witness: updating with an unregistered id `1` against an index that
only knows id `0` fails and leaves the manager untouched. -/
theorem options_update_invalid_addr_witness :
    Manager.options_update
      { kind := ⟨"tcpping", "example.com:80", 5000⟩,
        index_file := ⟨["example.com:80"]⟩, data_files := [],
        options := ⟨[0], 5000⟩, options_file := some ⟨[0], 5000⟩ }
      ⟨[0, 1], 2000⟩ true
      = (.error ManagerError.InvalidAddrArgument,
        { kind := ⟨"tcpping", "example.com:80", 5000⟩,
          index_file := ⟨["example.com:80"]⟩, data_files := [],
          options := ⟨[0], 5000⟩, options_file := some ⟨[0], 5000⟩ }) :=
  options_update_invalid_addr _ ⟨[0, 1], 2000⟩ true
    ⟨1, by simp, rfl⟩

/-- C7: an `options_update` whose ids all exist in the index replaces the
in-memory options and writes them to the options file before returning; when
the disk write fails the call returns `OptionsFileIO` but the in-memory
options have already been replaced (write-through is not atomic with
persistence). -/
theorem options_update_valid (m : Manager) (new_options : Options)
    (hok : ∀ i ∈ new_options.addrs, (m.index_file.get_addr i).isSome) :
    m.options_update new_options true
      = (.ok (),
         { m with options := new_options, options_file := some new_options }) ∧
    m.options_update new_options false
      = (.error ManagerError.OptionsFileIo,
         { m with options := new_options }) ∧
    (m.options_update new_options true).2.options_read = new_options ∧
    (m.options_update new_options true).2.options_file = some new_options ∧
    (m.options_update new_options false).2.options_read = new_options := by
  have hany : new_options.addrs.any
      (fun i => (m.index_file.get_addr i).isNone) = false := by
    rw [List.any_eq_false]
    intro i hi
    have := hok i hi
    simp only [Option.isNone_iff_eq_none]
    intro hnone
    rw [hnone] at this
    simp at this
  refine ⟨?_, ?_, ?_, ?_, ?_⟩
  all_goals simp [Manager.options_update, hany, Manager.options_read]

/-- C7 witness: a valid update against a one-entry index, in both the
successful-write and failing-write cases. -/
theorem options_update_valid_witness :
    Manager.options_update
      { kind := ⟨"tcpping", "example.com:80", 5000⟩,
        index_file := ⟨["example.com:80"]⟩, data_files := [],
        options := ⟨[0], 5000⟩, options_file := some ⟨[0], 5000⟩ }
      ⟨[0], 9999⟩ true
      = (.ok (),
         { kind := ⟨"tcpping", "example.com:80", 5000⟩,
           index_file := ⟨["example.com:80"]⟩, data_files := [],
           options := ⟨[0], 9999⟩, options_file := some ⟨[0], 9999⟩ }) ∧
    Manager.options_update
      { kind := ⟨"tcpping", "example.com:80", 5000⟩,
        index_file := ⟨["example.com:80"]⟩, data_files := [],
        options := ⟨[0], 5000⟩, options_file := some ⟨[0], 5000⟩ }
      ⟨[0], 9999⟩ false
      = (.error ManagerError.OptionsFileIo,
        { kind := ⟨"tcpping", "example.com:80", 5000⟩,
          index_file := ⟨["example.com:80"]⟩, data_files := [],
          options := ⟨[0], 9999⟩, options_file := some ⟨[0], 5000⟩ }) := by
  have h := options_update_valid
    { kind := ⟨"tcpping", "example.com:80", 5000⟩,
      index_file := ⟨["example.com:80"]⟩, data_files := [],
      options := ⟨[0], 5000⟩, options_file := some ⟨[0], 5000⟩ }
    ⟨[0], 9999⟩ (by decide)
  exact ⟨h.1, h.2.1⟩

/-- C8: constructing a `Manager` over an empty options file registers the
kind's default bootstrap address under a fresh id (`index length`; `0` for
an empty directory), writes `Options {addrs: [id], interval: default}` to
the options file and keeps it in memory, so `options_read()` returns it; a
non-empty options file is parsed and used directly, with no validation of
its ids against the index. -/
theorem manager_new_bootstrap :
    (∀ (kind : Kind) (dir : DataDir), dir.options_content = none →
      ∃ i, i = dir.index_content.length ∧ (dir.index_content = [] → i = 0) ∧
        Manager.new kind dir = .ok
          { kind := kind,
            index_file := ⟨dir.index_content ++ [kind.default_addr]⟩,
            data_files := [],
            options := ⟨[i], kind.default_interval⟩,
            options_file := some ⟨[i], kind.default_interval⟩ } ∧
        (Manager.new kind dir).map Manager.options_read
          = .ok ⟨[i], kind.default_interval⟩ ∧
        (⟨dir.index_content ++ [kind.default_addr]⟩ : IndexFile).get_addr i
          = some kind.default_addr) ∧
    (∀ (kind : Kind) (dir : DataDir) (o : Options),
      dir.options_content = some o →
      Manager.new kind dir = .ok
        { kind := kind, index_file := ⟨dir.index_content⟩, data_files := [],
          options := o, options_file := some o } ∧
      (Manager.new kind dir).map Manager.options_read = .ok o) := by
  constructor
  · intro kind dir h
    refine ⟨dir.index_content.length, rfl, by intro h'; simp [h'], ?_, ?_, ?_⟩
    · simp [Manager.new, h, Kind.default_options_bootstrap, IndexFile.add_addr]
    · simp [Manager.new, h, Kind.default_options_bootstrap, IndexFile.add_addr,
        Manager.options_read, Except.map]
    · simp [IndexFile.get_addr]
  · intro kind dir o h
    constructor
    · simp [Manager.new, h]
    · simp [Manager.new, h, Manager.options_read, Except.map]

/-- C8 witness: the spec's end-to-end scenario — empty directory, bootstrap
pair (`"example.com:80"`, `5000`): the index gains id `0` for that address
and the options value `{addrs: [0], interval: 5000}` is both on disk and
returned by `options_read()`; plus a non-empty options file taken as-is. -/
theorem manager_new_bootstrap_witness :
    Manager.new ⟨"tcpping", "example.com:80", 5000⟩ ⟨[], none⟩
      = .ok { kind := ⟨"tcpping", "example.com:80", 5000⟩,
              index_file := ⟨["example.com:80"]⟩, data_files := [],
              options := ⟨[0], 5000⟩, options_file := some ⟨[0], 5000⟩ } ∧
    Manager.new ⟨"tcpping", "example.com:80", 5000⟩
        ⟨["example.com:80"], some ⟨[77], 123⟩⟩
      = .ok { kind := ⟨"tcpping", "example.com:80", 5000⟩,
              index_file := ⟨["example.com:80"]⟩, data_files := [],
              options := ⟨[77], 123⟩, options_file := some ⟨[77], 123⟩ } := by
  constructor
  · have h := manager_new_bootstrap.1 ⟨"tcpping", "example.com:80", 5000⟩
      ⟨[], none⟩ rfl
    rcases h with ⟨i, hi, _, hnew, _, _⟩
    have hi0 : i = 0 := by simp [hi]
    rw [hi0] at hnew
    exact hnew
  · exact (manager_new_bootstrap.2 ⟨"tcpping", "example.com:80", 5000⟩
      ⟨["example.com:80"], some ⟨[77], 123⟩⟩ ⟨[77], 123⟩ rfl).1

/-! ## Helper lemmas: worker round assembly -/

/-- The address ids represented in a round set after an insert: the old ids
plus the inserted record's id (whether or not the insert was a no-op). -/
theorem insert_index_mem (p : TimePackage) (x : WorkerDataElement) (a : Nat) :
    (∃ d ∈ TimePackage.insert p x, d.index = a)
      ↔ (∃ d ∈ p, d.index = a) ∨ x.index = a := by
  constructor
  · rintro ⟨d, hd, hda⟩
    simp only [TimePackage.insert] at hd
    rcases mem_of_mem_btreeInsert (fun e => e.index) p x d hd with h | h
    · subst h
      exact Or.inr hda
    · exact Or.inl ⟨d, h, hda⟩
  · rintro (⟨d, hd, hda⟩ | hxa)
    · exact ⟨d, mem_btreeInsert_of_mem _ p x d hd, hda⟩
    · by_cases hdup : ∃ y ∈ p, y.index = x.index
      · rcases hdup with ⟨y, hy, hyx⟩
        exact ⟨y, mem_btreeInsert_of_mem _ p x y hy, hyx.trans hxa⟩
      · push_neg at hdup
        exact ⟨x, self_mem_btreeInsert _ p x hdup, hxa⟩

/-- Records already in the accumulating round set stay through the rest of
the fan-in loop. -/
theorem assembleRoundAux_mem_mono (t : Nat) (recv : Nat → Option Nat)
    (addrs : List Nat) (k0 : Nat) (pkg : TimePackage) (x : WorkerDataElement)
    (hx : x ∈ pkg) : x ∈ assembleRoundAux t recv k0 addrs pkg := by
  induction addrs generalizing k0 pkg with
  | nil => simpa [assembleRoundAux] using hx
  | cons a rest ih =>
    simp only [assembleRoundAux]
    exact ih (k0 + 1) _ (mem_btreeInsert_of_mem _ pkg _ x hx)

/-- Every record of the assembled round carries the round timestamp and the
NaN standard deviation, provided the accumulator's records already do. -/
theorem assembleRoundAux_time_sd (t : Nat) (recv : Nat → Option Nat)
    (addrs : List Nat) (k0 : Nat) (pkg : TimePackage)
    (hpkg : ∀ d ∈ pkg, d.time = t ∧ d.sd = NAN) :
    ∀ d ∈ assembleRoundAux t recv k0 addrs pkg, d.time = t ∧ d.sd = NAN := by
  induction addrs generalizing k0 pkg with
  | nil => simpa [assembleRoundAux] using hpkg
  | cons a rest ih =>
    simp only [assembleRoundAux]
    apply ih
    intro d hd
    simp only [TimePackage.insert] at hd
    rcases mem_of_mem_btreeInsert (fun e => e.index) pkg _ d hd with h | h
    · subst h
      exact ⟨rfl, rfl⟩
    · exact hpkg d h

/-- The ids represented in the assembled round: the accumulator's ids plus
every dispatched address id. -/
theorem assembleRoundAux_index_mem (t : Nat) (recv : Nat → Option Nat)
    (addrs : List Nat) (k0 : Nat) (pkg : TimePackage) (a : Nat) :
    (∃ d ∈ assembleRoundAux t recv k0 addrs pkg, d.index = a)
      ↔ (∃ d ∈ pkg, d.index = a) ∨ a ∈ addrs := by
  induction addrs generalizing k0 pkg with
  | nil => simp [assembleRoundAux]
  | cons a0 rest ih =>
    simp only [assembleRoundAux]
    rw [ih, insert_index_mem]
    simp only [List.mem_cons]
    constructor
    · rintro ((h | h) | h)
      · exact Or.inl h
      · exact Or.inr (Or.inl h.symm)
      · exact Or.inr (Or.inr h)
    · rintro (h | h | h)
      · exact Or.inl (Or.inl h)
      · exact Or.inl (Or.inr h.symm)
      · exact Or.inr h

/-- The assembled round stays strictly ascending by address id — at most one
record per id. -/
theorem assembleRoundAux_pairwise (t : Nat) (recv : Nat → Option Nat)
    (addrs : List Nat) (k0 : Nat) (pkg : TimePackage)
    (hpkg : pkg.Pairwise (fun d e => d.index < e.index)) :
    (assembleRoundAux t recv k0 addrs pkg).Pairwise
      (fun d e => d.index < e.index) := by
  induction addrs generalizing k0 pkg with
  | nil => simpa [assembleRoundAux] using hpkg
  | cons a rest ih =>
    simp only [assembleRoundAux]
    exact ih (k0 + 1) _ (btreeInsert_pairwise _ pkg _ hpkg)

/-- For distinct dispatched addresses (and an accumulator disjoint from
them), the `k`-th dispatched address ends up with exactly its own record:
round timestamp, its id, its received-or-sentinel value, NaN deviation. -/
theorem assembleRoundAux_dispatch_mem (t : Nat) (recv : Nat → Option Nat) :
    ∀ (addrs : List Nat) (k0 : Nat) (pkg : TimePackage), addrs.Nodup →
      (∀ d ∈ pkg, d.index ∉ addrs) →
      ∀ k, (hk : k < addrs.length) →
        ({ time := t, index := addrs.get ⟨k, hk⟩,
           val := (recv (k0 + k)).getD NAN, sd := NAN } : WorkerDataElement)
          ∈ assembleRoundAux t recv k0 addrs pkg := by
  intro addrs
  induction addrs with
  | nil =>
    intro k0 pkg _ _ k hk
    simp at hk
  | cons a0 rest ih =>
    intro k0 pkg hnd hdisj k hk
    rcases List.nodup_cons.mp hnd with ⟨ha0, hrest⟩
    simp only [assembleRoundAux]
    cases k with
    | zero =>
      simp only [List.get_cons_zero, Nat.add_zero]
      apply assembleRoundAux_mem_mono
      apply self_mem_btreeInsert
      intro y hy
      have := hdisj y hy
      simp only [List.mem_cons, not_or] at this
      exact this.1
    | succ j =>
      have hk' : j < rest.length := by simpa using hk
      have hdisj' : ∀ d ∈ TimePackage.insert pkg { time := t, index := a0, val := (recv k0).getD NAN, sd := NAN }, d.index ∉ rest := by
        intro d hd
        simp only [TimePackage.insert] at hd
        rcases mem_of_mem_btreeInsert (fun e => e.index) pkg _ d hd with h | h
        · subst h
          exact ha0
        · intro hmem
          exact (hdisj d h) (by simp [hmem])
      have hstep := ih (k0 + 1) _ hrest hdisj' j hk'
      have harith : k0 + (j + 1) = k0 + 1 + j := by omega
      simp only [List.get_cons_succ, harith]
      exact hstep

/-! ## Claim theorems: the probing worker -/

/-- C9: a round assembled by the worker has exactly one record per address
in the options snapshot (ids represented are exactly the snapshot's ids,
with at most one record per id), every record carries the single round
timestamp and an always-NaN standard deviation, every dispatched address's
record holds its probe's reported value with a closed channel resolving to
the NaN sentinel, and a failed probe itself reports NaN rather than an
error. -/
theorem worker_round_assembly (timestamp : Nat) (addrs : List Nat)
    (recv : Nat → Option Nat) (hnd : addrs.Nodup) :
    (∀ d ∈ assemble_round timestamp addrs recv,
      d.time = timestamp ∧ d.sd = NAN) ∧
    (∀ a, (∃ d ∈ assemble_round timestamp addrs recv, d.index = a)
      ↔ a ∈ addrs) ∧
    (assemble_round timestamp addrs recv).Pairwise
      (fun d e => d.index < e.index) ∧
    (∀ k, (hk : k < addrs.length) →
      ({ time := timestamp, index := addrs.get ⟨k, hk⟩,
         val := (recv k).getD NAN, sd := NAN } : WorkerDataElement)
        ∈ assemble_round timestamp addrs recv) ∧
    (∀ e, probe_result false e = NAN) := by
  refine ⟨?_, ?_, ?_, ?_, fun e => rfl⟩
  · exact assembleRoundAux_time_sd timestamp recv addrs 0 [] (by simp)
  · intro a
    rw [assemble_round, assembleRoundAux_index_mem]
    simp
  · exact assembleRoundAux_pairwise timestamp recv addrs 0 [] (by simp)
  · intro k hk
    have := assembleRoundAux_dispatch_mem timestamp recv addrs 0 [] hnd
      (by simp) k hk
    simpa using this

/-- C9 witness: a two-address round where the probe of address id `2`
reports `5` and the probe of address id `1` never reports — the latter's
record carries the NaN sentinel. -/
theorem worker_round_assembly_witness :
    ({ time := 100, index := 1, val := NAN, sd := NAN } : WorkerDataElement)
      ∈ assemble_round 100 [2, 1] (fun k => if k = 0 then some 5 else none) ∧
    (∀ d ∈ assemble_round 100 [2, 1] (fun k => if k = 0 then some 5 else none),
      d.time = 100 ∧ d.sd = NAN) := by
  have h := worker_round_assembly 100 [2, 1]
    (fun k => if k = 0 then some 5 else none) (by decide)
  refine ⟨?_, h.1⟩
  have := h.2.2.2.1 1 (by decide)
  simpa using this

/-- C10: the worker's per-round id-to-address resolution
(`get_addr(id).unwrap()` in dispatch order) is total exactly when every id
of the options snapshot is registered in the index — its not-found branch is
then unreachable; with any unregistered id the resolution panics (`none`)
instead of producing a NaN record, and a manager constructed over a
non-empty options file referencing an unknown id (loaded without
validation) reaches exactly that panic. -/
theorem worker_addr_resolution (f : IndexFile) (addrs : List Nat) :
    ((∀ i ∈ addrs, (f.get_addr i).isSome) → (resolve_addrs f addrs).isSome) ∧
    ((∃ i ∈ addrs, f.get_addr i = none) → resolve_addrs f addrs = none) ∧
    (∀ (kind : Kind) (dir : DataDir) (o : Options),
      dir.options_content = some o →
      (∃ i ∈ o.addrs, (⟨dir.index_content⟩ : IndexFile).get_addr i = none) →
      ∃ m, Manager.new kind dir = .ok m ∧
        resolve_addrs m.index_read m.options_read.addrs = none) := by
  have hsome : ∀ (g : IndexFile) (l : List Nat),
      (∀ i ∈ l, (g.get_addr i).isSome) → (resolve_addrs g l).isSome := by
    intro g l
    induction l with
    | nil =>
      intro _
      simp [resolve_addrs]
    | cons i rest ih =>
      intro h
      rcases Option.isSome_iff_exists.mp (h i (by simp)) with ⟨str, hstr⟩
      have hrest := ih (fun j hj => h j (by simp [hj]))
      rcases Option.isSome_iff_exists.mp hrest with ⟨l2, hl2⟩
      simp [resolve_addrs, hstr, hl2]
  have hnone : ∀ (g : IndexFile) (l : List Nat),
      (∃ i ∈ l, g.get_addr i = none) → resolve_addrs g l = none := by
    intro g l
    induction l with
    | nil =>
      intro h
      simp at h
    | cons i rest ih =>
      intro h
      rcases h with ⟨j, hj, hjn⟩
      rcases List.mem_cons.mp hj with h' | h'
      · subst h'
        simp [resolve_addrs, hjn]
      · cases hf : g.get_addr i with
        | none => simp [resolve_addrs, hf]
        | some str => simp [resolve_addrs, hf, ih ⟨j, h', hjn⟩]
  refine ⟨hsome f addrs, hnone f addrs, ?_⟩
  intro kind dir o h hbad
  refine ⟨{ kind := kind, index_file := ⟨dir.index_content⟩, data_files := [],
            options := o, options_file := some o }, by simp [Manager.new, h], ?_⟩
  exact hnone ⟨dir.index_content⟩ o.addrs hbad

/-- C10 witness: against a one-entry index, resolving `[0]` succeeds while
resolving `[0, 1]` (id `1` unregistered) panics. -/
theorem worker_addr_resolution_witness :
    (resolve_addrs ⟨["example.com:80"]⟩ [0]).isSome ∧
    resolve_addrs ⟨["example.com:80"]⟩ [0, 1] = none := by
  have h1 := worker_addr_resolution ⟨["example.com:80"]⟩ [0]
  have h2 := worker_addr_resolution ⟨["example.com:80"]⟩ [0, 1]
  exact ⟨h1.1 (by decide), h2.2.1 ⟨1, by simp, rfl⟩⟩

end Stabping
